import Mathlib

/-!
Shallow embedding of the `zspell_lsp` core (src/lexer.rs and src/server.rs).

Rust text (`&str`) is modelled as `List Char` (the sequence of Unicode scalar
values); byte offsets are `Nat`, computed with `Char.utf8Size`.  Fallible or
panicking operations return `Option`, with `none` standing for the panic.
-/

namespace ZspellLsp

/-- `lsp_types::Position` as used in src/lexer.rs: zero-based line and
character indices (`u32` in the source, modelled as `Nat`). -/
structure Position where
  line : Nat
  character : Nat
  deriving DecidableEq, Repr

/-- `lsp_types::Range`, half-open `[start, end)`. -/
structure Range where
  start : Position
  «end» : Position
  deriving DecidableEq, Repr

/-- src/lexer.rs `Word`: a token's text (a zero-copy slice of one line,
modelled by its character list) and its range. -/
structure Word where
  text : List Char
  range : Range
  deriving DecidableEq, Repr

/-- src/lexer.rs `CharPos`: a character, the position it occurs at, and its
byte offset within its own line's text. -/
structure CharPos where
  char : Char
  position : Position
  offset : Nat
  deriving DecidableEq, Repr

/-- src/lexer.rs `CharPosIter`: `lines` is the not-yet-current remainder of
`text.lines()`, `current_line` the line being scanned, `chars` the remaining
`char_indices` of the current line, `position` the next position to stamp. -/
structure CharPosIter where
  lines : List (List Char)
  current_line : List Char
  chars : List (Nat × Char)
  position : Position
  deriving DecidableEq, Repr

/-- src/lexer.rs `Lexer`. -/
structure Lexer where
  iter : CharPosIter
  current_word : Option Word
  deriving DecidableEq, Repr

/-- Rust `str::char_indices` of a line suffix, starting at byte offset
`off`: each character paired with its byte offset within the line. -/
def charIndicesAux : Nat → List Char → List (Nat × Char)
  | _, [] => []
  | off, c :: cs => (off, c) :: charIndicesAux (off + c.utf8Size) cs

/-- Rust `str::char_indices` of a line. -/
def charIndices (l : List Char) : List (Nat × Char) :=
  charIndicesAux 0 l

/-- Rust `str::split_inclusive('\n')`: split after every newline, each piece
keeping its trailing newline; the empty string yields no pieces. -/
def splitInclusive : List Char → List (List Char)
  | [] => []
  | c :: cs =>
    match splitInclusive cs with
    | [] => [[c]]
    | p :: ps => if c = '\n' then [c] :: p :: ps else (c :: p) :: ps

/-- Strip one trailing `'\n'`, then one trailing `'\r'`, exactly as Rust
`str::lines()` does to each piece of `split_inclusive('\n')`. -/
def stripNewline (l : List Char) : List Char :=
  if l.getLast? = some '\n' then
    let l' := l.dropLast
    if l'.getLast? = some '\r' then l'.dropLast else l'
  else l

/-- Rust `str::lines()`: `\n`-terminated (or final unterminated) pieces with
the `\n` / `\r\n` terminator stripped; a lone `\r` does not end a line. -/
def rustLines (text : List Char) : List (List Char) :=
  (splitInclusive text).map stripNewline

/-- src/lexer.rs `CharPosIter::new`: take the first line (or fail when there
is none), start its `char_indices`, position defaulting to `(0, 0)`. -/
def CharPosIter.new (text : List Char) : Option CharPosIter :=
  match rustLines text with
  | [] => none
  | line :: rest => some ⟨rest, line, charIndices line, ⟨0, 0⟩⟩

/-- src/lexer.rs `CharPosIter::next`, with the `&mut self` state passed and
returned explicitly.  A pending character of the current line is yielded at
the current position and the character index advances by one; when the
current line is exhausted the next line becomes current
(`position = (line + 1, 0)`) and the call retries, exactly like the source's
recursive `self.next()`; when no line remains the iterator yields `none`. -/
def nextAux : List (List Char) → List Char → List (Nat × Char) → Position →
    Option CharPos × CharPosIter
  | lines, cl, (off, c) :: rest, pos =>
    (some ⟨c, pos, off⟩, ⟨lines, cl, rest, ⟨pos.line, pos.character + 1⟩⟩)
  | [], cl, [], pos => (none, ⟨[], cl, [], pos⟩)
  | line :: ls, _, [], pos => nextAux ls line (charIndices line) ⟨pos.line + 1, 0⟩

/-- src/lexer.rs `CharPosIter::next` on the iterator structure. -/
def CharPosIter.next (it : CharPosIter) : Option CharPos × CharPosIter :=
  nextAux it.lines it.current_line it.chars it.position

/-- The apostrophe character `'` (U+0027). -/
def apostrophe : Char := Char.ofNat 39

/-- src/lexer.rs `is_wordchar`: `c.is_alphabetic() || c == '\''`.
`Char.isAlpha` stands for Rust's `char::is_alphabetic`; the two agree on all
ASCII characters, which covers every character these theorems evaluate, and
no theorem below depends on the classification outside that range. -/
def is_wordchar (c : Char) : Bool :=
  c.isAlpha || c = apostrophe

/-- Drop `n` leading bytes of a character list; `none` when `n` is not a
character boundary or exceeds the UTF-8 length. -/
def dropBytes : List Char → Nat → Option (List Char)
  | cs, 0 => some cs
  | [], _ + 1 => none
  | c :: cs, n + 1 =>
    if c.utf8Size ≤ n + 1 then dropBytes cs (n + 1 - c.utf8Size) else none

/-- Take `n` leading bytes of a character list; `none` when `n` is not a
character boundary or exceeds the UTF-8 length. -/
def takeBytes : List Char → Nat → Option (List Char)
  | _, 0 => some []
  | [], _ + 1 => none
  | c :: cs, n + 1 =>
    if c.utf8Size ≤ n + 1 then (takeBytes cs (n + 1 - c.utf8Size)).map (c :: ·) else none

/-- Rust `&line[a..b]`: `none` models the panic raised when `a > b`, when a
bound is past the end of `line`, or when a bound is not a character
boundary. -/
def byteSlice (line : List Char) (a b : Nat) : Option (List Char) :=
  if a ≤ b then (dropBytes line a).bind (fun rest => takeBytes rest (b - a)) else none

/-- src/lexer.rs `Lexer::make_word_at_line`: slice the word's text out of
`line` between the two byte offsets and pair it with the range; `none`
models the panic of the slice expression `&line[begin.offset..end.offset]`. -/
def make_word_at_line (line : List Char) (b e : CharPos) : Option Word :=
  (byteSlice line b.offset e.offset).map (fun t => ⟨t, ⟨b.position, e.position⟩⟩)

/-- src/lexer.rs `Lexer::new`. -/
def Lexer.new (text : List Char) : Option Lexer :=
  match CharPosIter.new text with
  | none => none
  | some iter => some ⟨iter, none⟩

/-- The `chars`-level step of `advance`'s first loop: discard delimiters
until a word-constituent character is yielded (`.ok`: the character, the
position after it, the remaining chars) or the current line's characters run
out (`.error` carries the position after the last consumed character). -/
def skipInChars : Position → List (Nat × Char) →
    Except Position (CharPos × Position × List (Nat × Char))
  | pos, [] => .error pos
  | pos, (off, c) :: rest =>
    if is_wordchar c then
      .ok (⟨c, pos, off⟩, ⟨pos.line, pos.character + 1⟩, rest)
    else skipInChars ⟨pos.line, pos.character + 1⟩ rest

/-- The skip loop of src/lexer.rs `Lexer::advance` (the `loop` computing
`begin`): repeated `self.iter.next()`, discarding non-word characters,
following the iterator across line boundaries.  Structured by pending lines
so it is structurally recursive; `skipToWordchar_eq_next` below recovers the
source's loop shape. -/
def skipAux : List (List Char) → List Char → List (Nat × Char) → Position →
    Option CharPos × CharPosIter
  | [], cl, chars, pos =>
    match skipInChars pos chars with
    | .ok (cp, pos', rest) => (some cp, ⟨[], cl, rest, pos'⟩)
    | .error pos' => (none, ⟨[], cl, [], pos'⟩)
  | l :: ls, cl, chars, pos =>
    match skipInChars pos chars with
    | .ok (cp, pos', rest) => (some cp, ⟨l :: ls, cl, rest, pos'⟩)
    | .error pos' => skipAux ls l (charIndices l) ⟨pos'.line + 1, 0⟩

/-- The skip loop on the iterator structure. -/
def skipToWordchar (it : CharPosIter) : Option CharPos × CharPosIter :=
  skipAux it.lines it.current_line it.chars it.position

/-- The `chars`-level step of `advance`'s `'find_end` loop: keep consuming
word-constituent characters, remembering the last one in `tmp`; stop (`.ok`)
as soon as a delimiter is consumed, or report that the current line's
characters ran out (`.error`). -/
def findEndInChars : Position → CharPos → List (Nat × Char) →
    Except (Position × CharPos) (CharPos × Position × List (Nat × Char))
  | pos, tmp, [] => .error (pos, tmp)
  | pos, tmp, (off, c) :: rest =>
    if is_wordchar c then
      findEndInChars ⟨pos.line, pos.character + 1⟩ ⟨c, pos, off⟩ rest
    else .ok (tmp, ⟨pos.line, pos.character + 1⟩, rest)

/-- The `'find_end` block of src/lexer.rs `Lexer::advance`, uniformised with
`tmp` initialised to `begin` (the source's first `self.iter.next()` step and
its inner `loop` both extend `tmp` while the next character is
word-constituent and stop on a delimiter or exhaustion, yielding `begin`
when no further word character was seen).  Like the source, it follows
`self.iter.next()` across line boundaries without any line check. -/
def findEndAux : List (List Char) → List Char → List (Nat × Char) → Position →
    CharPos → CharPos × CharPosIter
  | [], cl, chars, pos, tmp =>
    match findEndInChars pos tmp chars with
    | .ok (e, pos', rest) => (e, ⟨[], cl, rest, pos'⟩)
    | .error (pos', tmp') => (tmp', ⟨[], cl, [], pos'⟩)
  | l :: ls, cl, chars, pos, tmp =>
    match findEndInChars pos tmp chars with
    | .ok (e, pos', rest) => (e, ⟨l :: ls, cl, rest, pos'⟩)
    | .error (pos', tmp') => findEndAux ls l (charIndices l) ⟨pos'.line + 1, 0⟩ tmp'

/-- The `'find_end` loop on the iterator structure. -/
def findEnd (it : CharPosIter) (tmp : CharPos) : CharPos × CharPosIter :=
  findEndAux it.lines it.current_line it.chars it.position tmp

/-- src/lexer.rs `Lexer::advance`: skip delimiters to find `begin` (setting
`current_word = None` on exhaustion), remember `self.iter.current_line` at
that moment, run the `'find_end` loop, then bump `end` by one character
position and by `end.char.len_utf8()` bytes and slice the word out of the
remembered line.  `none` models the panic of the slice inside
`make_word_at_line`; otherwise the mutated lexer is returned. -/
def Lexer.advance (lx : Lexer) : Option Lexer :=
  match skipToWordchar lx.iter with
  | (none, it') => some ⟨it', none⟩
  | (some b, it') =>
    let current_line := it'.current_line
    let r := findEnd it' b
    let e0 := r.1
    let e : CharPos :=
      ⟨e0.char, ⟨e0.position.line, e0.position.character + 1⟩, e0.offset + e0.char.utf8Size⟩
    match make_word_at_line current_line b e with
    | none => none
    | some w => some ⟨r.2, some w⟩

/-- The number of characters the iterator can still yield plus one per
not-yet-current line: an upper bound that strictly decreases with every
yielded character. -/
def CharPosIter.size (it : CharPosIter) : Nat :=
  it.chars.length + (it.lines.map (fun l => l.length + 1)).sum

/-- Drive the `StreamingIterator` exactly as the callers do
(`lexer.next()` = `advance(); get()`), collecting the produced words until
exhaustion.  `none` models a panic inside some `advance` call.  `fuel` only
bounds the recursion: each produced word consumes at least one character of
the iterator, so `size + 1` advance calls always reach exhaustion (see
`tokens`). -/
def drainFuel : Nat → Lexer → Option (List Word)
  | 0, _ => none
  | fuel + 1, lx =>
    match Lexer.advance lx with
    | none => none
    | some lx' =>
      match lx'.current_word with
      | none => some []
      | some w => (drainFuel fuel lx').map (fun ws => w :: ws)

/-- All words produced by draining a fresh lexer over `text`, in production
order; `some []` when construction yields no lexer (the callers treat "no
lexer" as zero tokens); `none` models a panic while draining. -/
def tokens (text : List Char) : Option (List Word) :=
  match Lexer.new text with
  | none => some []
  | some lx => drainFuel (lx.iter.size + 1) lx

/-- Iterate `CharPosIter.next` into the list of all yielded positioned
characters; `fuel` only bounds the recursion (`size + 1` always suffices,
as proved by `streamFuel_spec`). -/
def streamFuel : Nat → CharPosIter → List CharPos
  | 0, _ => []
  | fuel + 1, it =>
    match CharPosIter.next it with
    | (none, _) => []
    | (some cp, it') => cp :: streamFuel fuel it'

/-- The full positioned character stream of a document. -/
def charStream (text : List Char) : List CharPos :=
  match CharPosIter.new text with
  | none => []
  | some it => streamFuel (it.size + 1) it

/-- Specification-side stream of a line suffix: the characters in order, all
stamped with the (fixed) line of `pos`, consecutive character indices, and
the byte offsets carried by `char_indices`. -/
def charsStream : Position → List (Nat × Char) → List CharPos
  | _, [] => []
  | pos, (off, c) :: rest =>
    ⟨c, pos, off⟩ :: charsStream ⟨pos.line, pos.character + 1⟩ rest

/-- Specification-side stream from line index `i` on: every scalar value of
every line, in document order; for each line the character index restarts at
0 and every byte offset is relative to that line's own text. -/
def specStreamFrom (i : Nat) : List (List Char) → List CharPos
  | [] => []
  | l :: ls => charsStream ⟨i, 0⟩ (charIndices l) ++ specStreamFrom (i + 1) ls

/-- The method string of the published notification in src/server.rs. -/
def publishMethod : String := "textDocument/publishDiagnostics"

/-- The diagnostic message built in src/server.rs `Server::make_diagnostics`. -/
def incorrectSpelling : String := "Incorrect spelling"

/-- `lsp_types::Diagnostic`, restricted to the fields src/server.rs sets
(`severity = some 1` is `DiagnosticSeverity::ERROR`; the remaining fields
are defaulted in the source and carry no information). -/
structure Diagnostic where
  range : Range
  message : String
  severity : Option Nat
  deriving DecidableEq, Repr

/-- `lsp_types::PublishDiagnosticsParams` as built in src/server.rs. -/
structure PublishDiagnosticsParams where
  uri : String
  diagnostics : List Diagnostic
  version : Option Nat
  deriving DecidableEq, Repr

/-- `lsp_server::Notification` as built in src/server.rs (its params are
always `PublishDiagnosticsParams` there). -/
structure Notification where
  method : String
  params : PublishDiagnosticsParams
  deriving DecidableEq, Repr

/-- src/server.rs `Server::make_diagnostics`.  The dictionary is the opaque
capability `check` (`self.dict.check`).  Outer `none` models a panic inside
the `while let Some(word) = lexer.next()` loop; `some none` is the source's
`Ok(None)` early return when `Lexer::new` yields no lexer.  Pushing one
diagnostic per word failing `check`, in production order, is rendered as
filter-then-map over the drained words. -/
def make_diagnostics (check : List Char → Bool) (uri : String) (text : List Char) :
    Option (Option Notification) :=
  match Lexer.new text with
  | none => some none
  | some lx =>
    match drainFuel (lx.iter.size + 1) lx with
    | none => none
    | some ws =>
      some (some ⟨publishMethod,
        ⟨uri, (ws.filter (fun w => !check w.text)).map
          (fun w => ⟨w.range, incorrectSpelling, some 1⟩), none⟩⟩)

/-- The `"textDocument/didChange"` arm of src/server.rs
`Server::handle_notification`: the handler evaluates
`params.content_changes[0].text` — `none` models the index panic on an empty
vector — and every later element of `content_changes` is ignored. -/
def handle_did_change (check : List Char → Bool) (uri : String)
    (content_changes : List (List Char)) : Option (Option Notification) :=
  match content_changes with
  | [] => none
  | t :: _ => make_diagnostics check uri t

/-! ### Helper lemmas about the positioned character stream -/

theorem charIndicesAux_length (l : List Char) :
    ∀ off, (charIndicesAux off l).length = l.length := by
  induction l with
  | nil => intro off; rfl
  | cons c cs ih => intro off; simp [charIndicesAux, ih]

theorem nextAux_none_spec :
    ∀ (lines : List (List Char)) (cl : List Char) (chars : List (Nat × Char))
      (pos : Position) (itF : CharPosIter),
      nextAux lines cl chars pos = (none, itF) →
      charsStream pos chars ++ specStreamFrom (pos.line + 1) lines = [] := by
  intro lines
  induction lines with
  | nil =>
    intro cl chars pos itF h
    cases chars with
    | nil => simp [charsStream, specStreamFrom]
    | cons oc rest =>
      obtain ⟨off, c⟩ := oc
      simp [nextAux] at h
  | cons l ls ih =>
    intro cl chars pos itF h
    cases chars with
    | nil =>
      have h2 : nextAux ls l (charIndices l) ⟨pos.line + 1, 0⟩ = (none, itF) := h
      have h3 := ih l (charIndices l) ⟨pos.line + 1, 0⟩ itF h2
      simp [charsStream, specStreamFrom]
      simpa using h3
    | cons oc rest =>
      obtain ⟨off, c⟩ := oc
      simp [nextAux] at h

theorem nextAux_some_spec :
    ∀ (lines : List (List Char)) (cl : List Char) (chars : List (Nat × Char))
      (pos : Position) (cp : CharPos) (it' : CharPosIter),
      nextAux lines cl chars pos = (some cp, it') →
      charsStream pos chars ++ specStreamFrom (pos.line + 1) lines =
        cp :: (charsStream it'.position it'.chars ++
          specStreamFrom (it'.position.line + 1) it'.lines) := by
  intro lines
  induction lines with
  | nil =>
    intro cl chars pos cp it' h
    cases chars with
    | nil => simp [nextAux] at h
    | cons oc rest =>
      obtain ⟨off, c⟩ := oc
      simp only [nextAux, Prod.mk.injEq, Option.some.injEq] at h
      obtain ⟨h1, h2⟩ := h
      subst h1; subst h2
      simp [charsStream, specStreamFrom]
  | cons l ls ih =>
    intro cl chars pos cp it' h
    cases chars with
    | nil =>
      have h2 : nextAux ls l (charIndices l) ⟨pos.line + 1, 0⟩ = (some cp, it') := h
      have h3 := ih l (charIndices l) ⟨pos.line + 1, 0⟩ cp it' h2
      simp [charsStream, specStreamFrom]
      simpa using h3
    | cons oc rest =>
      obtain ⟨off, c⟩ := oc
      simp only [nextAux, Prod.mk.injEq, Option.some.injEq] at h
      obtain ⟨h1, h2⟩ := h
      subst h1; subst h2
      simp [charsStream, specStreamFrom]

theorem nextAux_size_lt :
    ∀ (lines : List (List Char)) (cl : List Char) (chars : List (Nat × Char))
      (pos : Position) (cp : CharPos) (it' : CharPosIter),
      nextAux lines cl chars pos = (some cp, it') →
      it'.size < chars.length + (lines.map (fun l => l.length + 1)).sum := by
  intro lines
  induction lines with
  | nil =>
    intro cl chars pos cp it' h
    cases chars with
    | nil => simp [nextAux] at h
    | cons oc rest =>
      obtain ⟨off, c⟩ := oc
      simp only [nextAux, Prod.mk.injEq, Option.some.injEq] at h
      obtain ⟨h1, h2⟩ := h
      subst h2
      simp [CharPosIter.size]
  | cons l ls ih =>
    intro cl chars pos cp it' h
    cases chars with
    | nil =>
      have h2 : nextAux ls l (charIndices l) ⟨pos.line + 1, 0⟩ = (some cp, it') := h
      have h3 := ih l (charIndices l) ⟨pos.line + 1, 0⟩ cp it' h2
      have h4 : (charIndices l).length = l.length := charIndicesAux_length l 0
      simp only [List.length_nil, List.map_cons, List.sum_cons]
      omega
    | cons oc rest =>
      obtain ⟨off, c⟩ := oc
      simp only [nextAux, Prod.mk.injEq, Option.some.injEq] at h
      obtain ⟨h1, h2⟩ := h
      subst h2
      simp [CharPosIter.size]

theorem streamFuel_spec :
    ∀ (fuel : Nat) (it : CharPosIter), it.size < fuel →
      streamFuel fuel it =
        charsStream it.position it.chars ++
          specStreamFrom (it.position.line + 1) it.lines := by
  intro fuel
  induction fuel with
  | zero => intro it h; omega
  | succ n ih =>
    intro it h
    simp only [streamFuel]
    rcases h2 : CharPosIter.next it with ⟨o, it2⟩
    cases o with
    | none =>
      have h3 := nextAux_none_spec it.lines it.current_line it.chars it.position it2 h2
      simpa using h3.symm
    | some cp =>
      have h3 := nextAux_some_spec it.lines it.current_line it.chars it.position cp it2 h2
      have h4 := nextAux_size_lt it.lines it.current_line it.chars it.position cp it2 h2
      have h5 : it2.size < n := by
        have : it.chars.length + (it.lines.map (fun l => l.length + 1)).sum = it.size := rfl
        omega
      simp only [ih it2 h5]
      exact h3.symm

/-! ### Helper lemmas about construction -/

theorem splitInclusive_ne_nil (c : Char) (cs : List Char) :
    splitInclusive (c :: cs) ≠ [] := by
  cases h : splitInclusive cs with
  | nil => simp [splitInclusive, h]
  | cons p ps =>
    simp only [splitInclusive, h]
    split <;> simp

/-! ### Fidelity of the loop bodies

The two loops of `Lexer::advance` are rendered above by the structurally
recursive `skipAux` / `findEndAux`.  The next two lemmas recover the exact
loop shape of the source — one `CharPosIter::next` call per iteration,
branching only on `is_wordchar` — showing the rendering faithful. -/

theorem skipToWordchar_eq_next (it : CharPosIter) :
    skipToWordchar it =
      match CharPosIter.next it with
      | (none, itF) => (none, itF)
      | (some cp, it') =>
        if is_wordchar cp.char then (some cp, it') else skipToWordchar it' := by
  obtain ⟨lines, cl, chars, pos⟩ := it
  induction lines generalizing cl chars pos with
  | nil =>
    cases chars with
    | nil => rfl
    | cons oc rest =>
      obtain ⟨off, c⟩ := oc
      by_cases hw : is_wordchar c <;>
        simp [skipToWordchar, skipAux, skipInChars, CharPosIter.next, nextAux, hw]
  | cons l ls ih =>
    cases chars with
    | nil => exact ih l (charIndices l) ⟨pos.line + 1, 0⟩
    | cons oc rest =>
      obtain ⟨off, c⟩ := oc
      by_cases hw : is_wordchar c <;>
        simp [skipToWordchar, skipAux, skipInChars, CharPosIter.next, nextAux, hw]

theorem findEnd_eq_next (it : CharPosIter) (tmp : CharPos) :
    findEnd it tmp =
      match CharPosIter.next it with
      | (none, itF) => (tmp, itF)
      | (some cp, it') =>
        if is_wordchar cp.char then findEnd it' cp else (tmp, it') := by
  obtain ⟨lines, cl, chars, pos⟩ := it
  induction lines generalizing cl chars pos tmp with
  | nil =>
    cases chars with
    | nil => rfl
    | cons oc rest =>
      obtain ⟨off, c⟩ := oc
      by_cases hw : is_wordchar c <;>
        simp [findEnd, findEndAux, findEndInChars, CharPosIter.next, nextAux, hw]
  | cons l ls ih =>
    cases chars with
    | nil => exact ih tmp l (charIndices l) ⟨pos.line + 1, 0⟩
    | cons oc rest =>
      obtain ⟨off, c⟩ := oc
      by_cases hw : is_wordchar c <;>
        simp [findEnd, findEndAux, findEndInChars, CharPosIter.next, nextAux, hw]

/-! ### The claims -/

/-- Claim C1: the claim says every produced token satisfies
`range.start.line = range.end.line` and that draining the tokenizer over
`"abc\ndef\n"` yields the two tokens `("abc", (0,0)-(0,3))` and
`("def", (1,0)-(1,3))`.  The code violates this: because `advance`'s
`'find_end` loop follows `CharPosIter::next` across the line boundary, the
drain yields the single token `("abc", (0,0)-(1,3))`, whose range crosses
the line boundary, and `"def"` is never produced. -/
theorem claim_C1_token_line_invariant :
    tokens ("abc\ndef\n").toList =
      some [⟨("abc").toList, ⟨⟨0, 0⟩, ⟨1, 3⟩⟩⟩] ∧
    (tokens ("abc\ndef\n").toList).map
        (fun ws => ws.all (fun w => w.range.start.line == w.range.«end».line)) =
      some false := by
  exact ⟨by decide, by decide⟩

/-- Claim C2: the claim says no sequence of `advance` calls ever raises a
fault, the token slice always staying within the anchor line's bounds.  The
code violates this: over `"ab\ndefg\n"` the construction succeeds and the
very first `advance` reaches `make_word_at_line` with `end.offset = 4`
bytes into the two-byte anchor line `"ab"`, so the slice
`&line[0..4]` panics (`none`), and the drain therefore panics too. -/
theorem claim_C2_no_fault :
    (Lexer.new ("ab\ndefg\n").toList).isSome = true ∧
    (Lexer.new ("ab\ndefg\n").toList).bind Lexer.advance = none ∧
    tokens ("ab\ndefg\n").toList = none := by
  exact ⟨by decide, by decide, by decide⟩

/-- Claim C3: the claim says the concatenation of all produced token texts
equals the input with exactly the delimiter characters removed.  The code
violates this: over `"abc\nde\n"` it produces the single token text
`"ab"` (the cross-line scan sets `end.offset` from the second line and the
anchor-line slice `&"abc"[0..2]` silently truncates), while the input with
delimiters removed is `"abcde"` — the word characters `c`, `d`, `e` are
dropped. -/
theorem claim_C3_concatenation :
    (tokens ("abc\nde\n").toList).map (fun ws => (ws.map Word.text).flatten) =
      some (("ab").toList) ∧
    ("abc\nde\n").toList.filter is_wordchar = ("abcde").toList ∧
    (("ab").toList : List Char) ≠ ("abcde").toList := by
  exact ⟨by decide, by decide, by decide⟩

/-- Claim C4: the claim says a character is included in a token iff it is
word-constituent (alphabetic or apostrophe), with `"isn't\n"` giving one
token and `"foo-bar\n"` two.  The two concrete scenarios do hold, and token
texts never contain delimiters, but the code violates the "every
word-constituent character is included" direction: over `"xy\nzw\n"` the
word characters `z` and `w` are consumed by the cross-line `'find_end` scan
yet appear in no token (the only token is `("xy", (0,0)-(1,2))`). -/
theorem claim_C4_wordchar_inclusion :
    tokens ("xy\nzw\n").toList = some [⟨("xy").toList, ⟨⟨0, 0⟩, ⟨1, 2⟩⟩⟩] ∧
    is_wordchar 'z' = true ∧
    'z' ∉ (("xy").toList : List Char) ∧
    tokens (("isn").toList ++ apostrophe :: ("t\n").toList) =
      some [⟨("isn").toList ++ apostrophe :: [('t' : Char)], ⟨⟨0, 0⟩, ⟨0, 5⟩⟩⟩] ∧
    tokens ("foo-bar\n").toList =
      some [⟨("foo").toList, ⟨⟨0, 0⟩, ⟨0, 3⟩⟩⟩,
        ⟨("bar").toList, ⟨⟨0, 4⟩, ⟨0, 7⟩⟩⟩] := by
  exact ⟨by decide, by decide, by decide, by decide, by decide⟩

/-- Claim C5: the positioned character stream yields each scalar value of
the document in order, stamped with a zero-based line index, a character
index that restarts at 0 exactly when a line becomes current and otherwise
advances by one per character, and a byte offset relative to the current
line's own text; and the input `"\n\nfoo\n"` yields exactly one token
`("foo", (2,0)-(2,3))`. -/
theorem claim_C5_positioned_stream :
    (∀ text : List Char, charStream text = specStreamFrom 0 (rustLines text)) ∧
    tokens ("\n\nfoo\n").toList = some [⟨("foo").toList, ⟨⟨2, 0⟩, ⟨2, 3⟩⟩⟩] := by
  constructor
  · intro text
    cases h : rustLines text with
    | nil => simp [charStream, CharPosIter.new, h, specStreamFrom]
    | cons l ls =>
      have hnew : CharPosIter.new text = some ⟨ls, l, charIndices l, ⟨0, 0⟩⟩ := by
        simp [CharPosIter.new, h]
      have hsz : (CharPosIter.mk ls l (charIndices l) ⟨0, 0⟩).size <
          (CharPosIter.mk ls l (charIndices l) ⟨0, 0⟩).size + 1 := Nat.lt_succ_self _
      simp only [charStream, hnew]
      rw [streamFuel_spec _ _ hsz]
      simp [specStreamFrom]
  · decide

/-- Claim C6: constructing a tokenizer yields an absent result exactly when
the input has no lines, i.e. exactly for the empty text (any other text has
at least one line); a successful construction starts with no current word
(positioned before the first character); and the empty input produces zero
tokens. -/
theorem claim_C6_construction :
    (∀ text : List Char,
      ((Lexer.new text).isNone ↔ text = []) ∧
      (Lexer.new text).elim True (fun lx => lx.current_word = none)) ∧
    tokens ([] : List Char) = some [] := by
  refine ⟨fun text => ?_, rfl⟩
  cases text with
  | nil => exact ⟨by simp [Lexer.new, CharPosIter.new, rustLines, splitInclusive], trivial⟩
  | cons c cs =>
    have hne : rustLines (c :: cs) ≠ [] := by
      simp only [rustLines, ne_eq, List.map_eq_nil_iff]
      exact splitInclusive_ne_nil c cs
    cases h : rustLines (c :: cs) with
    | nil => exact absurd h hne
    | cons l ls =>
      constructor
      · simp [Lexer.new, CharPosIter.new, h]
      · simp [Lexer.new, CharPosIter.new, h]

/-- Claim C7: the claim says every `advance` call either produces exactly
one token or signals exhaustion, and exhaustion is sticky.  Stickiness does
hold (over `"hi\n"` the second `advance` signals exhaustion and the third
returns the very same exhausted state), but the code violates the
dichotomy: over `"up\ndown\n"` the first `advance` call panics in the slice
`&"up"[0..4]` — it neither produces a token nor signals exhaustion. -/
theorem claim_C7_advance_outcomes :
    ((Lexer.new ("up\ndown\n").toList).isSome = true ∧
      (Lexer.new ("up\ndown\n").toList).bind Lexer.advance = none) ∧
    (((Lexer.new ("hi\n").toList).bind Lexer.advance).map Lexer.current_word =
        some (some ⟨("hi").toList, ⟨⟨0, 0⟩, ⟨0, 2⟩⟩⟩) ∧
      (((Lexer.new ("hi\n").toList).bind Lexer.advance).bind Lexer.advance).map
          Lexer.current_word = some none ∧
      ((((Lexer.new ("hi\n").toList).bind Lexer.advance).bind Lexer.advance).bind
          Lexer.advance) =
        (((Lexer.new ("hi\n").toList).bind Lexer.advance).bind Lexer.advance)) := by
  exact ⟨⟨by decide, by decide⟩, by decide, by decide, by decide⟩

/-- Claim C8: the claim says that for every document over which a tokenizer
can be constructed, `make_diagnostics` drains it and emits exactly one
diagnostic (carrying the token's range) per token failing `check`.  The
positive behaviour holds on panic-free inputs — `"Hello world.\n"` with a
dictionary accepting only `"Hello"` publishes exactly the diagnostic at
`(0,6)-(0,11)` — but the code violates the universal claim: over
`"go\nahead\n"` construction succeeds yet the drain loop panics, so no
diagnostics are emitted at all. -/
theorem claim_C8_make_diagnostics :
    ∀ uri : String,
      (Lexer.new ("go\nahead\n").toList).isSome = true ∧
      make_diagnostics (fun _ => false) uri ("go\nahead\n").toList = none ∧
      make_diagnostics (fun t => t == ("Hello").toList) uri ("Hello world.\n").toList =
        some (some ⟨publishMethod,
          ⟨uri, [⟨⟨⟨0, 6⟩, ⟨0, 11⟩⟩, incorrectSpelling, some 1⟩], none⟩⟩) :=
  fun _ => ⟨rfl, rfl, rfl⟩

/-- Claim C9: the `"textDocument/didChange"` handler reads only the first
element of `content_changes` — an empty list makes the index expression
`content_changes[0]` panic (no error result is returned) — and all elements
after the first are ignored. -/
theorem claim_C9_did_change_first_change :
    (∀ (check : List Char → Bool) (uri : String),
      handle_did_change check uri [] = none) ∧
    (∀ (check : List Char → Bool) (uri : String) (t : List Char)
      (rest : List (List Char)),
      handle_did_change check uri (t :: rest) = make_diagnostics check uri t) :=
  ⟨fun _ _ => rfl, fun _ _ _ _ => rfl⟩

/-- Claim C10: when the document text has no lines (the empty string),
`make_diagnostics` returns no notification at all (`Ok(None)`) rather than
publishing an empty diagnostics list — so previously published diagnostics
are never cleared for an emptied document; by contrast a non-empty,
all-correct document does publish a notification with an empty list. -/
theorem claim_C10_empty_text_no_publish :
    ∀ (check : List Char → Bool) (uri : String),
      make_diagnostics check uri [] = some none ∧
      make_diagnostics (fun _ => true) uri ("x").toList =
        some (some ⟨publishMethod, ⟨uri, [], none⟩⟩) :=
  fun _ _ => ⟨rfl, rfl⟩

end ZspellLsp
